import Mathlib

/-!
Shallow embedding of `gw2formats/pf/PackFile.h` (template class
`PackFile<TFileType>`): the buffer owner (`assign`, `load`, copy),
the raw chunk scanner (`chunk(dword, uint32&)`), and the typed
dispatcher (`chunk<TId>()`).

Bytes are modelled as natural numbers (< 256 where it matters), a
buffer (`std::vector<byte>`) as a list of bytes, and the heap of
reference-counted vectors (`std::shared_ptr<DataVector>`) as a store:
a list of buffers addressed by index.  A `PackFile` value holds the
index of its vector (`m_data`) and whether `m_header` is non-null.
All multi-byte fields are little-endian, as on the target platform.
-/

namespace Gw2f

abbrev Buffer := List Nat

abbrev Store := List Buffer

/-- State of a `PackFile` object: `buf` is the store index of the
owned vector (`m_data`); `hasHeader` models `m_header != nullptr`
(when set, `m_header` points at the first byte of the owned
vector). -/
structure PackFile where
  buf : Nat
  hasHeader : Bool
deriving DecidableEq

/-- Dereference the shared pointer: the bytes of the container's
vector (an out-of-range index models a null/empty vector). -/
def getData (s : Store) (pf : PackFile) : Buffer :=
  s.getD pf.buf []

/-- Little-endian 16-bit read at byte offset `i` (as done by
reinterpreting the packed struct fields). -/
def readU16 (bs : Buffer) (i : Nat) : Nat :=
  bs.getD i 0 + 2 ^ 8 * bs.getD (i + 1) 0

/-- Little-endian 32-bit read at byte offset `i`. -/
def readU32 (bs : Buffer) (i : Nat) : Nat :=
  bs.getD i 0 + 2 ^ 8 * bs.getD (i + 1) 0 + 2 ^ 16 * bs.getD (i + 2) 0 +
    2 ^ 24 * bs.getD (i + 3) 0

/-- Size of the packed `FileHeader`: magic[2] + descriptorType +
zero + headerSize + contentType. -/
def fileHeaderSize : Nat := 12

/-- Size of the packed `ChunkHeader`: magic + nextChunkOffset +
version + headerSize + descriptorOffset. -/
def chunkHeaderSize : Nat := 16

/-- Default constructor: allocates a fresh empty vector,
`m_header = nullptr`. -/
def initPackFile (s : Store) : Store × PackFile :=
  (s ++ [[]], ⟨s.length, false⟩)

/-- Model of `PackFile::assign(p_data, p_size)`.  The input is
`none` for a null pointer, `some bs` for a pointer to `bs` with
`p_size = bs.length`.  Checks, in source order: null/zero size, size
at least `sizeof(FileHeader)`, magic bytes `'P' 'F'` (80, 70), and
`contentType == TFileType`.  On failure nothing is touched; on
success a fresh vector holding a copy of the input is allocated and
`m_header` is set. -/
def assign (tft : Nat) (s : Store) (pf : PackFile) (input : Option Buffer) :
    Store × PackFile × Bool :=
  match input with
  | none => (s, pf, false)
  | some bs =>
      if bs.length = 0 then (s, pf, false)
      else if bs.length < fileHeaderSize then (s, pf, false)
      else if bs.getD 0 0 ≠ 80 ∨ bs.getD 1 0 ≠ 70 then (s, pf, false)
      else if readU32 bs 8 ≠ tft then (s, pf, false)
      else (s ++ [bs], ⟨s.length, true⟩, true)

/-- Model of `PackFile::load(p_filename)`: the whole-file read is
abstracted as an optional byte list (`none` when the stream cannot
be opened); on a readable file it delegates to `assign`. -/
def load (tft : Nat) (s : Store) (pf : PackFile) (file : Option Buffer) :
    Store × PackFile × Bool :=
  match file with
  | none => (s, pf, false)
  | some bs => assign tft s pf (some bs)

/-- Copy constructor / copy assignment: shares the vector (copies the
shared pointer) and re-derives `m_header` from whether the shared
vector is non-empty. -/
def copy (s : Store) (pf : PackFile) : PackFile :=
  ⟨pf.buf, (getData s pf).length != 0⟩

/-- The `chunkSize` local of the scan loop:
`nextChunkOffset + offsetof(ChunkHeader, nextChunkOffset) +
sizeof(nextChunkOffset)`; the additions are carried out in `size_t`
(64-bit), so no wrap occurs here. -/
def chunkSpan (bs : Buffer) (pos : Nat) : Nat :=
  readU32 bs (pos + 4) + 4 + 4

/-- The `po_size` assignment on a match:
`po_size = chunkSize - chunkHead->headerSize`, a 64-bit unsigned
subtraction truncated to the `uint32` out-parameter. -/
def payloadSize (bs : Buffer) (pos : Nat) : Nat :=
  ((2 ^ 64 + chunkSpan bs pos - readU16 bs (pos + 10)) % 2 ^ 64) % 2 ^ 32

/-- The scan loop of `PackFile::chunk(p_identifier, po_size)`,
started at byte offset `pos` (initially `sizeof(FileHeader)`):
while the pointer is before the end and at least
`sizeof(ChunkHeader)` bytes remain, read the chunk header at `pos`;
on a magic match return the payload view (offset after the fixed
chunk header, and the computed `po_size`), otherwise advance by the
computed chunk span.  `bs.length - pos < 16` covers both loop exits
(`pointer >= end` and `remaining < sizeof(ChunkHeader)`). -/
def scanFrom (bs : Buffer) (id : Nat) (pos : Nat) : Option (Nat × Nat) :=
  if _h : bs.length - pos < chunkHeaderSize then none
  else if readU32 bs pos = id then some (pos + chunkHeaderSize, payloadSize bs pos)
  else scanFrom bs id (pos + chunkSpan bs pos)
termination_by bs.length - pos
decreasing_by
  simp only [chunkHeaderSize] at _h
  have h8 : 8 ≤ chunkSpan bs pos := by
    simp only [chunkSpan]; omega
  omega

/-- Model of `PackFile::chunk(p_identifier, po_size)`: the result is
the returned pointer (as an offset into the owned buffer, or `none`
for `nullptr`) together with the final value of the `po_size`
out-parameter (initialized to 0, overwritten only on a match). -/
def chunkRaw (s : Store) (pf : PackFile) (id : Nat) : Option (Nat × Nat) × Nat :=
  if pf.hasHeader then
    match scanFrom (getData s pf) id fileHeaderSize with
    | none => (none, 0)
    | some (off, sz) => (some (off, sz), sz)
  else (none, 0)

/-- The bytes of a returned chunk view: `sz` bytes starting at
offset `off` of the container's buffer. -/
def viewBytes (s : Store) (pf : PackFile) (off sz : Nat) : Buffer :=
  ((getData s pf).drop off).take sz

/-- Observable outcome of the typed `chunk<TId>()`: either the
external registry's record constructor was invoked —
`make_shared<ChunkFactory<TFileType,TId>::Type>(data, size)` — with
the given pointer argument (`none` models `nullptr`) and size
argument, yielding a non-null shared pointer, or no record was
constructed and a null shared pointer was returned. -/
inductive TypedResult where
  | constructed (dataArg : Option Nat) (sizeArg : Nat)
  | absent
deriving DecidableEq

/-- Model of `PackFile::chunk<TId>()`: runs the raw lookup and then
unconditionally passes its result to `make_shared` — also when the
raw lookup returned `nullptr`. -/
def chunkTyped (s : Store) (pf : PackFile) (id : Nat) : TypedResult :=
  TypedResult.constructed ((chunkRaw s pf id).1.map Prod.fst) (chunkRaw s pf id).2

/-- The chunk-header positions the scan loop visits, in visit
order. -/
def chunkPositions (bs : Buffer) (pos : Nat) : List Nat :=
  if _h : bs.length - pos < chunkHeaderSize then []
  else pos :: chunkPositions bs (pos + chunkSpan bs pos)
termination_by bs.length - pos
decreasing_by
  simp only [chunkHeaderSize] at _h
  have h8 : 8 ≤ chunkSpan bs pos := by
    simp only [chunkSpan]; omega
  omega

/-- The header invariant of a container: an empty vector means no
header view, and a non-empty vector starts with a full, validated
file header (`magic == "PF"`, `contentType == TFileType`). -/
def Inv (tft : Nat) (s : Store) (pf : PackFile) : Prop :=
  ((getData s pf).length = 0 → pf.hasHeader = false) ∧
  ((getData s pf).length ≠ 0 →
    fileHeaderSize ≤ (getData s pf).length ∧
    (getData s pf).getD 0 0 = 80 ∧ (getData s pf).getD 1 0 = 70 ∧
    readU32 (getData s pf) 8 = tft)

instance (tft : Nat) (s : Store) (pf : PackFile) : Decidable (Inv tft s pf) := by
  unfold Inv; infer_instance

/-- The demonstration buffer of the concrete scenario: a valid file
header (contentType 1), one chunk header (magic 2, nextChunkOffset 8,
version 1, headerSize 12, descriptorOffset 0), then 8 payload
bytes. -/
def demoBuf : Buffer :=
  [80, 70, 0, 0, 0, 0, 16, 0, 1, 0, 0, 0,
   2, 0, 0, 0, 8, 0, 0, 0, 1, 0, 12, 0, 0, 0, 0, 0,
   10, 11, 12, 13, 14, 15, 16, 17]

/-- A container whose two chunks share the identifier 7; the first
one (at offset 12) must win. -/
def dupBuf : Buffer :=
  [80, 70, 0, 0, 0, 0, 16, 0, 1, 0, 0, 0,
   7, 0, 0, 0, 8, 0, 0, 0, 1, 0, 12, 0, 0, 0, 0, 0,
   7, 0, 0, 0, 8, 0, 0, 0, 1, 0, 12, 0, 0, 0, 0, 0]

/-- A valid file header followed by one chunk header whose declared
span (nextChunkOffset 100, so span 108) far exceeds the 16 bytes
that remain in the buffer. -/
def overBuf : Buffer :=
  [80, 70, 0, 0, 0, 0, 16, 0, 1, 0, 0, 0,
   2, 0, 0, 0, 100, 0, 0, 0, 1, 0, 16, 0, 0, 0, 0, 0]

/-- A valid file header followed by one chunk header with
nextChunkOffset 0 (span 8) but declared headerSize 16 > 8. -/
def underBuf : Buffer :=
  [80, 70, 0, 0, 0, 0, 16, 0, 1, 0, 0, 0,
   3, 0, 0, 0, 0, 0, 0, 0, 1, 0, 16, 0, 0, 0, 0, 0]

theorem getD_lt_256 (bs : Buffer) (hb : ∀ b ∈ bs, b < 256) (i : Nat) :
    bs.getD i 0 < 256 := by
  by_cases h : i < bs.length
  · refine hb _ ?_
    rw [List.getD_eq_getElem?_getD, List.getElem?_eq_getElem h]
    exact List.getElem_mem h
  · rw [List.getD_eq_default _ _ (by omega)]
    omega

theorem readU32_lt (bs : Buffer) (hb : ∀ b ∈ bs, b < 256) (i : Nat) :
    readU32 bs i < 2 ^ 32 := by
  have h0 := getD_lt_256 bs hb i
  have h1 := getD_lt_256 bs hb (i + 1)
  have h2 := getD_lt_256 bs hb (i + 2)
  have h3 := getD_lt_256 bs hb (i + 3)
  simp only [readU32]
  omega

theorem chunkSpan_ge (bs : Buffer) (pos : Nat) : 8 ≤ chunkSpan bs pos := by
  simp only [chunkSpan]; omega

theorem chunkPositions_le_aux (bs : Buffer) (n : Nat) :
    ∀ pos x, bs.length - pos ≤ n → x ∈ chunkPositions bs pos → pos ≤ x := by
  induction n with
  | zero =>
      intro pos x hn hx
      rw [chunkPositions, dif_pos (by simp only [chunkHeaderSize]; omega)] at hx
      simp at hx
  | succ n ih =>
      intro pos x hn hx
      rw [chunkPositions] at hx
      by_cases hg : bs.length - pos < chunkHeaderSize
      · rw [dif_pos hg] at hx; simp at hx
      · rw [dif_neg hg] at hx
        rcases List.mem_cons.mp hx with rfl | hx
        · exact le_refl x
        · have h8 := chunkSpan_ge bs pos
          simp only [chunkHeaderSize] at hg
          have := ih (pos + chunkSpan bs pos) x (by omega) hx
          omega

theorem chunkPositions_mem_le (bs : Buffer) (pos x : Nat)
    (hx : x ∈ chunkPositions bs pos) : pos ≤ x :=
  chunkPositions_le_aux bs (bs.length - pos) pos x (le_refl _) hx

theorem chunkPositions_chain_aux (bs : Buffer) (n : Nat) :
    ∀ pos, bs.length - pos ≤ n →
      List.Chain' (fun a b => a < b) (chunkPositions bs pos) := by
  induction n with
  | zero =>
      intro pos hn
      rw [chunkPositions, dif_pos (by simp only [chunkHeaderSize]; omega)]
      exact List.chain'_nil
  | succ n ih =>
      intro pos hn
      rw [chunkPositions]
      by_cases hg : bs.length - pos < chunkHeaderSize
      · rw [dif_pos hg]; exact List.chain'_nil
      · rw [dif_neg hg]
        have h8 := chunkSpan_ge bs pos
        simp only [chunkHeaderSize] at hg
        refine List.chain'_cons'.mpr ⟨?_, ih (pos + chunkSpan bs pos) (by omega)⟩
        intro y hy
        have := chunkPositions_mem_le bs (pos + chunkSpan bs pos) y
          (List.mem_of_mem_head? hy)
        omega

theorem scanFrom_first_aux (bs : Buffer) (id : Nat) (n : Nat) :
    ∀ pos p, bs.length - pos ≤ n → p ∈ chunkPositions bs pos →
      readU32 bs p = id →
      (∀ q, q ∈ chunkPositions bs pos → q < p → ¬(readU32 bs q = id)) →
      scanFrom bs id pos = some (p + chunkHeaderSize, payloadSize bs p) := by
  induction n with
  | zero =>
      intro pos p hn hp hm hfirst
      rw [chunkPositions, dif_pos (by simp only [chunkHeaderSize]; omega)] at hp
      simp at hp
  | succ n ih =>
      intro pos p hn hp hm hfirst
      rw [chunkPositions] at hp
      by_cases hg : bs.length - pos < chunkHeaderSize
      · rw [dif_pos hg] at hp; simp at hp
      · rw [dif_neg hg] at hp
        have h8 := chunkSpan_ge bs pos
        have hg' : ¬(bs.length - pos < chunkHeaderSize) := hg
        simp only [chunkHeaderSize] at hg
        rw [scanFrom, dif_neg hg']
        by_cases hmagic : readU32 bs pos = id
        · rw [if_pos hmagic]
          rcases List.mem_cons.mp hp with rfl | hp'
          · rfl
          · have hlt : pos < p := by
              have := chunkPositions_mem_le bs (pos + chunkSpan bs pos) p hp'
              omega
            exact absurd hmagic
              (hfirst pos (by rw [chunkPositions, dif_neg hg']; exact List.mem_cons_self _ _) hlt)
        · rw [if_neg hmagic]
          have hp' : p ∈ chunkPositions bs (pos + chunkSpan bs pos) := by
            rcases List.mem_cons.mp hp with rfl | hp'
            · exact absurd hm hmagic
            · exact hp'
          refine ih (pos + chunkSpan bs pos) p (by omega) hp' hm ?_
          intro q hq hqp
          refine hfirst q ?_ hqp
          rw [chunkPositions, dif_neg hg']
          exact List.mem_cons_of_mem _ hq

/-- C1 (code bug): even when the raw lookup finds nothing — here, on
an unloaded container — the typed `chunk<TId>()` still invokes the
registry's record constructor, passing it a null data pointer and
size 0, and returns the freshly constructed record rather than an
absent result (`make_shared` is called unconditionally, so the
returned shared pointer is never null, contradicting the function's
own documentation). -/
theorem chunkTyped_constructs_on_notfound :
    (chunkRaw [] ⟨0, false⟩ 5).1 = none ∧
    chunkTyped [] ⟨0, false⟩ 5 = TypedResult.constructed none 0 := by
  constructor
  · decide
  · decide

/-- C2 (code bug): the scan never checks the computed span against
the remaining bytes; on this buffer the chunk's span (108) exceeds
the 16 remaining bytes, the magic matches, and the lookup returns a
92-byte view starting at the buffer's very end — a view that
extends past the owned buffer instead of being treated as
end-of-scan. -/
theorem chunk_view_past_end :
    overBuf.length = 28 ∧ chunkSpan overBuf 12 = 108 ∧
    chunkRaw [overBuf] ⟨0, true⟩ 2 = (some (28, 92), 92) ∧
    overBuf.length < 28 + 92 := by
  refine ⟨by decide, by decide, ?_, by decide⟩
  have hs : scanFrom overBuf 2 12 = some (28, 92) := by
    rw [scanFrom]
    norm_num [readU32, readU16, payloadSize, chunkSpan, overBuf, chunkHeaderSize]
  simp [chunkRaw, getData, fileHeaderSize, hs]

/-- C3 (code bug): a chunk whose declared headerSize (16) exceeds
its computed span (8) is not treated as malformed/end-of-scan: the
matching lookup underflows the payload-size subtraction and returns
the wrapped 32-bit value 2^32 - 8 = 4294967288 together with a
view.  (The no-infinite-loop half of the claim does hold: the span
is computed in 64-bit as nextChunkOffset + 8 >= 8, so the scan
position strictly advances and the loop always terminates.) -/
theorem chunk_size_underflow :
    chunkSpan underBuf 12 = 8 ∧ readU16 underBuf 22 = 16 ∧
    chunkRaw [underBuf] ⟨0, true⟩ 3 = (some (28, 4294967288), 4294967288) := by
  refine ⟨by decide, by decide, ?_⟩
  have hs : scanFrom underBuf 3 12 = some (28, 4294967288) := by
    rw [scanFrom]
    norm_num [readU32, readU16, payloadSize, chunkSpan, underBuf, chunkHeaderSize]
  simp [chunkRaw, getData, fileHeaderSize, hs]

/-- C4 counterexample: on the scenario buffer (one chunk with magic
2, nextChunkOffset 8, headerSize 12, followed by 8 payload bytes)
the raw lookup for identifier 2 returns a 4-byte view — the span is
8 + 8 = 16 and the payload length is 16 - 12 = 4 — so the statement
that the returned view is the full 8-byte payload is false. -/
theorem chunk_demo_counterexample :
    chunkRaw [demoBuf] ⟨0, true⟩ 2 = (some (28, 4), 4) ∧
    (viewBytes [demoBuf] ⟨0, true⟩ 28 4 = [10, 11, 12, 13, 14, 15, 16, 17]) = False := by
  refine ⟨?_, eq_false (by decide)⟩
  have hs : scanFrom demoBuf 2 12 = some (28, 4) := by
    rw [scanFrom]
    norm_num [readU32, readU16, payloadSize, chunkSpan, demoBuf, chunkHeaderSize]
  simp [chunkRaw, getData, fileHeaderSize, hs]

/-- C4 amended: on the scenario buffer the raw lookup for identifier
2 returns the view starting at the first payload byte (offset 28)
with length span - headerSize = 16 - 12 = 4, i.e. the first 4 of
the 8 payload bytes; the raw lookup for every other identifier
returns absent with size 0. -/
theorem chunk_demo_amended :
    assign 1 [] ⟨0, false⟩ (some demoBuf) = ([demoBuf], ⟨0, true⟩, true) ∧
    chunkRaw [demoBuf] ⟨0, true⟩ 2 = (some (28, 4), 4) ∧
    viewBytes [demoBuf] ⟨0, true⟩ 28 4 = [10, 11, 12, 13] ∧
    (∀ z, ¬(z = 2) → chunkRaw [demoBuf] ⟨0, true⟩ z = (none, 0)) := by
  refine ⟨by decide, ?_, by decide, ?_⟩
  · have hs : scanFrom demoBuf 2 12 = some (28, 4) := by
      rw [scanFrom]
      norm_num [readU32, readU16, payloadSize, chunkSpan, demoBuf, chunkHeaderSize]
    simp [chunkRaw, getData, fileHeaderSize, hs]
  · intro z hz
    have hstep : scanFrom demoBuf z 12 = scanFrom demoBuf z 28 := by
      rw [scanFrom, dif_neg (by decide)]
      simp only [show readU32 demoBuf 12 = 2 from by decide]
      rw [if_neg (fun hzz => hz hzz.symm)]
      norm_num [chunkSpan, readU32, demoBuf]
    have hend : scanFrom demoBuf z 28 = none := by
      rw [scanFrom, dif_pos (by decide)]
    simp [chunkRaw, getData, fileHeaderSize, hstep, hend]

theorem chunk_demo_amended_witness :
    chunkRaw [demoBuf] ⟨0, true⟩ 3 = (none, 0) :=
  chunk_demo_amended.2.2.2 3 (by decide)

/-- C5: assigning a buffer that is shorter than the file header, or
whose first two bytes are not 'P','F', or whose contentType differs
from the instantiation's type tag, fails and leaves the container's
prior state (and the store, hence every previously obtainable chunk
view) completely unchanged. -/
theorem assign_invalid_unchanged (tft : Nat) (s : Store) (pf : PackFile) (bs : Buffer)
    (h : bs.length < fileHeaderSize ∨ ¬(bs.getD 0 0 = 80 ∧ bs.getD 1 0 = 70) ∨
      ¬(readU32 bs 8 = tft)) :
    assign tft s pf (some bs) = (s, pf, false) ∧
    ∀ id, chunkRaw (assign tft s pf (some bs)).1 (assign tft s pf (some bs)).2.1 id =
      chunkRaw s pf id := by
  have h1 : assign tft s pf (some bs) = (s, pf, false) := by
    simp only [assign]
    split_ifs with h0 hlen hmagic hct
    · rfl
    · rfl
    · rfl
    · rfl
    · exfalso
      push_neg at hmagic
      rcases h with h | h | h
      · exact hlen h
      · exact h hmagic
      · exact h (by omega)
  refine ⟨h1, fun id => by rw [h1]⟩

theorem assign_invalid_unchanged_witness :
    assign 1 [] ⟨0, false⟩ (some [1, 2, 3]) = ([], ⟨0, false⟩, false) ∧
    chunkRaw (assign 1 [] ⟨0, false⟩ (some [1, 2, 3])).1
      (assign 1 [] ⟨0, false⟩ (some [1, 2, 3])).2.1 9 = chunkRaw [] ⟨0, false⟩ 9 :=
  ⟨(assign_invalid_unchanged 1 [] ⟨0, false⟩ [1, 2, 3] (Or.inl (by decide))).1,
   (assign_invalid_unchanged 1 [] ⟨0, false⟩ [1, 2, 3] (Or.inl (by decide))).2 9⟩

/-- C6: at any scan position with a full chunk header remaining, the
chunk's total span as computed by the code equals
nextChunkOffset + offsetof(ChunkHeader, nextChunkOffset) +
sizeof(nextChunkOffset) = nextChunkOffset + 8; when the chunk's
magic equals the requested identifier the returned payload starts at
the chunk-header start plus the fixed 16-byte chunk-header size and
has length span - headerSize, and otherwise the scan advances by
exactly the span. -/
theorem chunk_span_formula (bs : Buffer) (id pos : Nat)
    (hb : ∀ b ∈ bs, b < 256)
    (hrem : chunkHeaderSize ≤ bs.length - pos)
    (hhs : readU16 bs (pos + 10) ≤ readU32 bs (pos + 4) + 8)
    (hfit : readU32 bs (pos + 4) + 8 - readU16 bs (pos + 10) < 2 ^ 32) :
    chunkSpan bs pos = readU32 bs (pos + 4) + 8 ∧
    (readU32 bs pos = id →
      scanFrom bs id pos =
        some (pos + 16, readU32 bs (pos + 4) + 8 - readU16 bs (pos + 10))) ∧
    (¬(readU32 bs pos = id) →
      scanFrom bs id pos = scanFrom bs id (pos + (readU32 bs (pos + 4) + 8))) := by
  have hspan : chunkSpan bs pos = readU32 bs (pos + 4) + 8 := by
    simp only [chunkSpan]
  have hr32 := readU32_lt bs hb (pos + 4)
  have hpo : payloadSize bs pos =
      readU32 bs (pos + 4) + 8 - readU16 bs (pos + 10) := by
    simp only [payloadSize, chunkSpan]
    omega
  refine ⟨hspan, ?_, ?_⟩
  · intro hmagic
    rw [scanFrom, dif_neg (by omega), if_pos hmagic, hpo]
    simp [chunkHeaderSize]
  · intro hne
    rw [scanFrom, dif_neg (by omega), if_neg hne, hspan]

theorem chunk_span_formula_witness :
    chunkSpan demoBuf 12 = 16 ∧ scanFrom demoBuf 2 12 = some (28, 4) := by
  have h := chunk_span_formula demoBuf 2 12 (by decide) (by decide) (by decide) (by decide)
  exact ⟨h.1, h.2.1 (by decide)⟩

theorem inv_assign (tft : Nat) (s : Store) (pf : PackFile) (input : Option Buffer)
    (hInv : Inv tft s pf) :
    Inv tft (assign tft s pf input).1 (assign tft s pf input).2.1 := by
  match input with
  | none => exact hInv
  | some bs =>
      simp only [assign]
      split_ifs with h0 hlen hmagic hct
      · exact hInv
      · exact hInv
      · exact hInv
      · exact hInv
      · push_neg at hmagic
        show Inv tft (s ++ [bs]) ⟨s.length, true⟩
        have hg : getData (s ++ [bs]) ⟨s.length, true⟩ = bs := by
          simp [getData, List.getD_eq_getElem?_getD]
        refine ⟨?_, ?_⟩
        · intro hzero
          rw [hg] at hzero
          exact absurd hzero h0
        · intro _
          rw [hg]
          exact ⟨Nat.le_of_not_lt hlen, hmagic.1, hmagic.2, by omega⟩

/-- C7: every lifecycle operation of the container — default
construction, load, assign (either outcome), and copy
construction/assignment — preserves the header invariant: an empty
container has no header view, and a non-empty container's first
bytes form a validated file header (`magic == "PF"`,
`contentType == TFileType`).  The chunk lookup is `const` and does
not alter the container at all. -/
theorem inv_preserved (tft : Nat) :
    (∀ s, Inv tft (initPackFile s).1 (initPackFile s).2) ∧
    (∀ s pf input, Inv tft s pf →
      Inv tft (assign tft s pf input).1 (assign tft s pf input).2.1) ∧
    (∀ s pf file, Inv tft s pf →
      Inv tft (load tft s pf file).1 (load tft s pf file).2.1) ∧
    (∀ s pf, Inv tft s pf → Inv tft s (copy s pf)) := by
  refine ⟨?_, ?_, ?_, ?_⟩
  · intro s
    have hg : getData (s ++ [[]]) (⟨s.length, false⟩ : PackFile) = ([] : Buffer) := by
      simp [getData, List.getD_eq_getElem?_getD]
    show Inv tft (s ++ [[]]) ⟨s.length, false⟩
    refine ⟨fun _ => rfl, fun hne => ?_⟩
    rw [hg] at hne
    simp at hne
  · intro s pf input hInv
    exact inv_assign tft s pf input hInv
  · intro s pf file hInv
    match file with
    | none => exact hInv
    | some bs => exact inv_assign tft s pf (some bs) hInv
  · intro s pf hInv
    have hg : getData s (copy s pf) = getData s pf := rfl
    refine ⟨?_, ?_⟩
    · intro hzero
      rw [hg] at hzero
      simp [copy, hzero]
    · intro hne
      rw [hg] at hne ⊢
      exact hInv.2 hne

theorem inv_preserved_witness :
    Inv 1 (initPackFile []).1 (initPackFile []).2 ∧
    Inv 1 (assign 1 [] ⟨0, false⟩ (some [1])).1
      (assign 1 [] ⟨0, false⟩ (some [1])).2.1 :=
  ⟨(inv_preserved 1).1 [],
   (inv_preserved 1).2.1 [] ⟨0, false⟩ (some [1]) (by decide)⟩

/-- C8: after copying container A (the copy B shares A's vector) and
reassigning A to new data, B's buffer, every chunk view obtainable
from B, and the bytes of every such view are unchanged —
reassignment allocates a fresh vector and never mutates the shared
one. -/
theorem copy_reassign_isolated (tft : Nat) (s : Store) (A B : PackFile)
    (input : Option Buffer) (hA : A.buf < s.length) (hB : B = copy s A) :
    getData (assign tft s A input).1 B = getData s B ∧
    (∀ id, chunkRaw (assign tft s A input).1 B id = chunkRaw s B id) ∧
    (∀ off sz, viewBytes (assign tft s A input).1 B off sz = viewBytes s B off sz) := by
  have hbuf : B.buf = A.buf := by rw [hB]; rfl
  have hdata : getData (assign tft s A input).1 B = getData s B := by
    match input with
    | none => rfl
    | some bs =>
        simp only [assign]
        split_ifs
        · rfl
        · rfl
        · rfl
        · rfl
        · show getData (s ++ [bs]) B = getData s B
          simp only [getData]
          exact List.getD_append s [bs] [] B.buf (by omega)
  exact ⟨hdata, fun id => by simp only [chunkRaw, hdata],
    fun off sz => by simp only [viewBytes, hdata]⟩

theorem copy_reassign_isolated_witness :
    getData (assign 1 [demoBuf] ⟨0, true⟩ (some dupBuf)).1 ⟨0, true⟩ =
      getData [demoBuf] ⟨0, true⟩ ∧
    chunkRaw (assign 1 [demoBuf] ⟨0, true⟩ (some dupBuf)).1 ⟨0, true⟩ 2 =
      chunkRaw [demoBuf] ⟨0, true⟩ 2 :=
  ⟨(copy_reassign_isolated 1 [demoBuf] ⟨0, true⟩ ⟨0, true⟩ (some dupBuf)
      (by decide) (by decide)).1,
   (copy_reassign_isolated 1 [demoBuf] ⟨0, true⟩ ⟨0, true⟩ (some dupBuf)
      (by decide) (by decide)).2.1 2⟩

/-- C9: on a loaded container, the raw chunk lookup returns the view
of the first chunk (in storage order) whose magic equals the
requested identifier: the visit order of the scan is strictly
increasing in the buffer, and whenever `p` is a visited chunk-header
position whose magic matches and no earlier visited position
matches, the lookup returns exactly the view of the chunk at `p`. -/
theorem chunk_first_match_wins (s : Store) (pf : PackFile) (id p : Nat)
    (hh : pf.hasHeader = true)
    (hp : p ∈ chunkPositions (getData s pf) fileHeaderSize)
    (hm : readU32 (getData s pf) p = id)
    (hfirst : ∀ q, q ∈ chunkPositions (getData s pf) fileHeaderSize → q < p →
      ¬(readU32 (getData s pf) q = id)) :
    List.Chain' (fun a b => a < b) (chunkPositions (getData s pf) fileHeaderSize) ∧
    chunkRaw s pf id =
      (some (p + chunkHeaderSize, payloadSize (getData s pf) p),
        payloadSize (getData s pf) p) := by
  constructor
  · exact chunkPositions_chain_aux (getData s pf) ((getData s pf).length - fileHeaderSize)
      fileHeaderSize (le_refl _)
  · have hscan := scanFrom_first_aux (getData s pf) id
      ((getData s pf).length - fileHeaderSize) fileHeaderSize p (le_refl _) hp hm hfirst
    simp only [chunkRaw, hh, if_true, hscan]

theorem chunk_first_match_wins_witness :
    chunkRaw [dupBuf] ⟨0, true⟩ 7 = (some (28, 4), 4) := by
  have hcp : chunkPositions (getData [dupBuf] ⟨0, true⟩) fileHeaderSize = [12, 28] := by
    simp [chunkPositions, chunkHeaderSize, chunkSpan, readU32, dupBuf, getData,
      fileHeaderSize]
  have h := (chunk_first_match_wins [dupBuf] ⟨0, true⟩ 7 12 rfl
    (by rw [hcp]; decide) (by decide) ?_).2
  · exact h
  · rw [hcp]; decide

/-- C10: whenever the raw lookup returns the null view — unloaded
container or a scan that ended without a match — the `po_size`
out-parameter is zero. -/
theorem chunk_notfound_size_zero (s : Store) (pf : PackFile) (id : Nat)
    (h : (chunkRaw s pf id).1 = none) : (chunkRaw s pf id).2 = 0 := by
  by_cases hh : pf.hasHeader
  · simp only [chunkRaw, hh, if_true] at h ⊢
    cases hscan : scanFrom (getData s pf) id fileHeaderSize with
    | none => simp [hscan]
    | some v => rw [hscan] at h; simp at h
  · simp [chunkRaw, hh]

theorem chunk_notfound_size_zero_witness :
    (chunkRaw [] ⟨0, false⟩ 3).1 = none ∧ (chunkRaw [] ⟨0, false⟩ 3).2 = 0 :=
  ⟨by decide, chunk_notfound_size_zero [] ⟨0, false⟩ 3 (by decide)⟩

end Gw2f
